import Mathlib

/-!
Verification of the ctm2git pipeline (`ctm2git.py`).

The script is embedded shallowly:
* the working directory is a list of files, each a pair of a component path
  and a content string; directories exist implicitly as path prefixes;
* collaborator effects (HTTP fetch, `tar`, `git`) are modelled by pure
  functions and an explicit commit record, following the observed behaviour
  of those tools (`tar -x '' -f a.tar` extracts the whole archive, so the
  no-strip branch extracts verbatim; `git commit` without `--allow-empty`
  fails when nothing changed);
* Python exceptions and `exit(1)` become `Except` errors.
-/

deriving instance DecidableEq for Except

namespace Ctm2git

/-! ## Dictionaries

Python `dict`s are association lists in insertion order. -/

/-- Python `dict` assignment `m[k] = v`: replace the value of an existing key
in place, otherwise append the new binding (insertion order preserved). -/
def setk {α β : Type} [DecidableEq α] : List (α × β) → α → β → List (α × β)
  | [], k, v => [(k, v)]
  | (k', v') :: t, k, v =>
    if k' = k then (k, v) :: t else (k', v') :: setk t k v

/-- Python `dict` lookup `m.get(k)`. -/
def lookupk {α β : Type} [DecidableEq α] : List (α × β) → α → Option β
  | [], _ => none
  | (k', v') :: t, k => if k' = k then some v' else lookupk t k

/-! ## String primitives

The Python string operations are re-implemented by structural recursion on
character lists (the library versions are position-based and do not reduce
in the kernel).  `pyX` models Python's `str.X`. -/

def pyStartsWith (s pre : String) : Bool := pre.data.isPrefixOf s.data

def pyEndsWith (s suf : String) : Bool := suf.data.isSuffixOf s.data

/-- Python slicing `s[n:]` (by characters). -/
def pyDrop (s : String) (n : Nat) : String := String.mk (s.data.drop n)

/-- Splitter for `str.split()` with no separator: split on runs of
whitespace, discarding empty pieces. -/
def splitWsChars : List Char → List Char → List (List Char)
  | [], acc => if acc = [] then [] else [acc.reverse]
  | c :: t, acc =>
    if c.isWhitespace then
      if acc = [] then splitWsChars t [] else acc.reverse :: splitWsChars t []
    else splitWsChars t (c :: acc)

/-- Python `str.split()` with no separator. -/
def splitWs (s : String) : List String := (splitWsChars s.data []).map String.mk

/-- Splitter for `str.split(sep)` with a one-character separator. -/
def splitOnChar (sep : Char) : List Char → List Char → List (List Char)
  | [], acc => [acc.reverse]
  | c :: t, acc =>
    if c = sep then acc.reverse :: splitOnChar sep t [] else splitOnChar sep t (c :: acc)

/-- Python `str.split(sep)` for a one-character separator (also used for
`splitlines`, whose only difference — no trailing empty piece after a final
newline — is invisible to the setup.ini parser, since an empty line matches
no branch). -/
def pySplitOn (s : String) (sep : Char) : List String :=
  (splitOnChar sep s.data []).map String.mk

/-- Python `str.strip()`. -/
def pyStrip (s : String) : String :=
  String.mk (((s.data.dropWhile Char.isWhitespace).reverse.dropWhile Char.isWhitespace).reverse)

/-- Python `str.replace(old, new)`: replace all occurrences left to right,
non-overlapping.  The fuel argument (instantiated with the string length)
keeps the recursion structural. -/
def replaceGo (old new : List Char) : Nat → List Char → List Char
  | _, [] => []
  | 0, l => l
  | Nat.succ f, c :: t =>
    if old ≠ [] ∧ old.isPrefixOf (c :: t) then
      new ++ replaceGo old new f (t.drop (old.length - 1))
    else c :: replaceGo old new f t

/-- Python `str.replace(old, new)` (for nonempty `old`). -/
def pyReplace (s old new : String) : String :=
  String.mk (replaceGo old.data new.data s.data.length s.data)

/-! ## Cached fetcher (`url_retrieve_cached`, lines 34-44)

The cache directory is a map from cache file name to file content (the
constant directory prefix `CACHE_DIR` is common to all entries and is
dropped); `download` stands for `urllib.request.urlretrieve`. -/

/-- The cache file name computed by `url_retrieve_cached`:
`u.replace('http://', '').replace(os.path.sep, '_')` with `os.path.sep = '/'`. -/
def url_cache_key (u : String) : String :=
  pyReplace (pyReplace u "http://" "") "/" "_"

/-- `url_retrieve_cached(u)`: return the cache file name for `u`, downloading
into the cache only when the file is not already present.  Returns the file
name and the updated cache. -/
def url_retrieve_cached (download : String → String)
    (cache : List (String × String)) (u : String) : String × List (String × String) :=
  let fn := url_cache_key u
  match lookupk cache fn with
  | some _ => (fn, cache)
  | none => (fn, setk cache fn (download u))

/-! ## Snapshot index parser (`parse_setup_ini`, lines 190-205) -/

/-- The local variables of `parse_setup_ini`'s loop: `p` and `v` are unbound
(`none`) until a `@` / `version:` line has been seen; `parsed` is the
accumulated dict. -/
structure IniState where
  p : Option String
  v : Option String
  parsed : List (String × String)
deriving DecidableEq

/-- One iteration of the `for l in contents.splitlines()` loop of
`parse_setup_ini`.  A `source:` line raises `IndexError` when its value has
no token (`l[8:].split()[0]`), `UnboundLocalError` when `p` is unbound, and
(when the block matches) `UnboundLocalError` when `v` is unbound. -/
def iniLine (package : String) (st : IniState) (l : String) : Except String IniState :=
  if pyStartsWith l "@" then .ok { st with p := some (pyDrop l 2) }
  else if pyStartsWith l "version:" then .ok { st with v := some (pyDrop l 9) }
  else if pyStartsWith l "source:" then
    match splitWs (pyDrop l 8) with
    | [] => .error "IndexError"
    | s :: _ =>
      match st.p with
      | none => .error "UnboundLocalError: p"
      | some p =>
        if p = package then
          match st.v with
          | none => .error "UnboundLocalError: v"
          | some v => .ok { st with parsed := setk st.parsed v s }
        else .ok st
  else .ok st

/-- The full line loop of `parse_setup_ini`, threading the state. -/
def runIni (package : String) (st : IniState) : List String → Except String IniState
  | [] => .ok st
  | l :: rest =>
    match iniLine package st l with
    | .error e => .error e
    | .ok st' => runIni package st' rest

/-- `parse_setup_ini(contents, package)`: `splitlines` then the line loop,
returning the `parsed` dict (or the exception it raises). -/
def parse_setup_ini (contents package : String) : Except String (List (String × String)) :=
  match runIni package ⟨none, none, []⟩ (pySplitOn contents '\n') with
  | .error e => .error e
  | .ok st => .ok st.parsed

/-! Positional description of the parser, used to state the spec's claims:
which lines are block headers / version lines / source lines, and what the
current block name and version value are just before a given line index. -/

def isBlockLine (l : String) : Bool := pyStartsWith l "@"

def blockName (l : String) : String := pyDrop l 2

def isVersionLine (l : String) : Bool := pyStartsWith l "version:"

def versionVal (l : String) : String := pyDrop l 9

def isSourceLine (l : String) : Bool := pyStartsWith l "source:"

/-- First whitespace-delimited token of a `source:` line's value. -/
def sourceTok (l : String) : Option String := (splitWs (pyDrop l 8)).head?

/-- Name of the most recent `@ ` block line, scanning a line list. -/
def lastP (lines : List String) : Option String :=
  lines.foldl (fun acc l => if isBlockLine l then some (blockName l) else acc) none

/-- Value of the most recent `version:` line, scanning a line list. -/
def lastV (lines : List String) : Option String :=
  lines.foldl (fun acc l => if isVersionLine l then some (versionVal l) else acc) none

/-- Line `j` is a `source:` line whose enclosing block (most recent `@ `
line) names `package` and whose most recent preceding `version:` line has
value `v` — the situation in which the claims say a record is made. -/
def qualifiesIdx (package : String) (lines : List String) (j : Nat) (v : String) : Bool :=
  decide (j < lines.length) && isSourceLine (lines.getD j "") &&
    (lastP (lines.take j) == some package) && (lastV (lines.take j) == some v)

/-- As `qualifiesIdx`, additionally requiring the recorded token to be `s`. -/
def qualifiesAt (package : String) (lines : List String) (j : Nat) (v s : String) : Bool :=
  qualifiesIdx package lines j v && (sourceTok (lines.getD j "") == some s)

/-- Token of the last qualifying `source:` line for version `v`, if any. -/
def lastQualTok (package : String) (lines : List String) (v : String) : Option String :=
  (List.range lines.length).foldl
    (fun acc j => if qualifiesIdx package lines j v then sourceTok (lines.getD j "") else acc)
    none

/-! ## Sourcelist builder (`ctm_to_sourcelist`, lines 53-85)

A snapshot is a pair of its base URL (the `circa`, i.e. the setup.ini URL
with the `/setup.ini` suffix removed by `re.search('^(.*)/setup.ini$', u)`)
and the text of its setup.ini.  `keep` stands for the `since` filter
`(args.since is None) or (SetupVersion(v) > SetupVersion(args.since[0]))`,
whose version comparator is an external collaborator. -/

/-- The `for u in urls` loop: parse each snapshot and overwrite
`sources[v]` unconditionally for each version that passes the filter. -/
def ctmLoop (package : String) (keep : String → Bool)
    (sources : List (String × String)) : List (String × String) → Except String (List (String × String))
  | [] => .ok sources
  | (circa, text) :: rest =>
    match parse_setup_ini text package with
    | .error e => .error e
    | .ok s =>
      ctmLoop package keep
        (s.foldl (fun m q => if keep q.1 then setk m q.1 (circa ++ "/" ++ q.2) else m) sources)
        rest

/-- The snapshot merge of `ctm_to_sourcelist`: snapshots are given newest
first, and the resulting dict maps each kept version to
`circa + '/' + relative_url`. -/
def ctm_to_sourcelist (package : String) (keep : String → Bool)
    (snaps : List (String × String)) : Except String (List (String × String)) :=
  ctmLoop package keep [] snaps

/-! ## Repository builder (`sourcelist_to_repo`, lines 88-187) -/

/-- A file in the working directory: component path plus content.
Directories exist implicitly as proper path prefixes. -/
abbrev Dir := List (List String × String)

/-- The top-level directory entry a file belongs to (what `os.scandir('.')`
lists). -/
def topName (f : List String × String) : String := f.1.headD ""

/-- Number of entries `os.scandir('.')` / `os.listdir('.')` reports:
distinct top-level names, `.git` included. -/
def numEntries (d : Dir) : Nat := ((d.map topName).dedup).length

/-- Does the working directory contain a top-level `.git` entry
(`os.path.exists('.git')`)? -/
def hasGit (d : Dir) : Bool := d.any (fun f => topName f == ".git")

def REMOVE_EXTS : List String :=
  [".tar.gz", ".tgz", ".tar.bz2", ".tbz", ".tar.lzma", ".tar.xz", ".txz",
   ".tar.zst", ".cpio.gz", ".sig"]

def DEFAULT_AUTHOR : String := "unknown <unknown@unknown.invalid>"

/-- `re.match(r'[^/]*\.src/', name)`: the member name has a `/`, and the
part before the first `/` ends with `.src`. -/
def stripMatch (name : String) : Bool :=
  match splitOnChar '/' name.data [] with
  | [] => false
  | [_] => false
  | c :: _ :: _ => ".src".data.isSuffixOf c

/-- `any(re.match(r'[^/]*\.src/', f) for f in archive.getnames())`. -/
def archiveStrip (names : List String) : Bool := names.any stripMatch

/-- A member name as a component path. -/
def memberComps (name : String) : List String := (splitOnChar '/' name.data []).map String.mk

/-- `tar -x [--strip-components=1] -f filename`: add every member to the
working directory, overwriting existing files; with `--strip-components=1`
the first component is dropped and single-component members are skipped. -/
def tarExtract (d : Dir) (archive : List (String × String)) (strip : Bool) : Dir :=
  archive.foldl (fun acc m =>
    let comps := memberComps m.1
    if strip then
      match comps with
      | [] => acc
      | [_] => acc
      | _ :: rest => setk acc rest m.2
    else setk acc comps m.2) d

def extMatches (n : String) : Bool := REMOVE_EXTS.any (fun e => pyEndsWith n e)

/-- Remove upstream archives and `.sig` files: `os.remove` every top-level
entry whose name ends with one of `REMOVE_EXTS`; it raises when such an
entry is a directory. -/
def removeExts (d : Dir) : Except String Dir :=
  if d.any (fun f => decide (2 ≤ f.1.length) && extMatches (topName f)) then
    .error "IsADirectoryError"
  else .ok (d.filter (fun f => !extMatches (topName f)))

/-- Is `name` a top-level directory (`os.path.isdir`)? -/
def isDirIn (d : Dir) (name : String) : Bool :=
  d.any (fun f => topName f == name && decide (2 ≤ f.1.length))

/-- Does path `p` exist, as a file or a directory (`os.path.exists`)? -/
def pathHas (d : Dir) (p : List String) : Bool := d.any (fun f => p.isPrefixOf f.1)

/-- `os.rename(src, dst)`: move `src` (file or whole subtree) to `dst`,
replacing anything already at `dst`. -/
def renameAll (d : Dir) (src dst : List String) : Dir :=
  (d.filter (fun f => !(dst.isPrefixOf f.1))).map
    (fun f => if src.isPrefixOf f.1 then (dst ++ f.1.drop src.length, f.2) else f)

/-- The g-b-s hoist for one candidate directory name (lines 153-165): if the
directory exists, move `<dir>/<package>.mknetrel` to the root, move every
entry of `<dir>/CYGWIN-PATCHES` to the root (`os.scandir` raises when
`CYGWIN-PATCHES` is a plain file), then `rmtree` the directory. -/
def hoistDir (package : String) (d : Dir) (name : String) : Except String Dir :=
  if isDirIn d name then
    let mk := package ++ ".mknetrel"
    let d1 := if pathHas d [name, mk] then renameAll d [name, mk] [mk] else d
    if d1.any (fun f => f.1 == [name, "CYGWIN-PATCHES"]) then
      .error "NotADirectoryError"
    else
      let d2 := if pathHas d1 [name, "CYGWIN-PATCHES"] then
          d1.map (fun f =>
            match f.1 with
            | a :: b :: r => if a == name && b == "CYGWIN-PATCHES" then (r, f.2) else f
            | _ => f)
        else d1
      .ok (d2.filter (fun f => !(topName f == name)))
  else .ok d

/-- Both hoist candidates: `package + '-' + v` and
`package + '-' + v.rsplit('-')[0]` (the version truncated at its first
`-`). -/
def gbsHoist (package v : String) (d : Dir) : Except String Dir :=
  match hoistDir package d (package ++ "-" ++ v) with
  | .error e => .error e
  | .ok d1 => hoistDir package d1 (package ++ "-" ++ String.mk ((splitOnChar '-' v.data []).headD []))

def digitOrSlash (c : Char) : Bool := c.isDigit || c == '/'

/-- The group of `([\d/]*)/` matched greedily at the start of `t`: the
longest run of digits and slashes that is followed by one more `/` — i.e.
the maximal digit-or-slash run truncated before its last slash. -/
def circaGroup (t : List Char) : Option (List Char) :=
  let run := t.takeWhile digitOrSlash
  match run.reverse.dropWhile (fun c => c ≠ '/') with
  | [] => none
  | _ :: rest => some rest.reverse

/-- Continue the match of `circa/(?:64bit/|)([\d/]*)/` after `circa/`: try
the `64bit/` alternative first, then backtrack to the empty alternative. -/
def circaAt (l : List Char) : Option (List Char) :=
  if "64bit/".data.isPrefixOf l then
    match circaGroup (l.drop 6) with
    | some g => some g
    | none => circaGroup l
  else circaGroup l

/-- `re.search(r'circa/(?:64bit/|)([\d/]*)/', url)`: try the pattern at each
position, left to right. -/
def circaSearch : List Char → Option (List Char)
  | [] => none
  | c :: t =>
    match (if "circa/".data.isPrefixOf (c :: t) then circaAt ((c :: t).drop 6) else none) with
    | some g => some g
    | none => circaSearch t

/-- The circa date extracted from a source URL (line 175); `none` models the
`AttributeError` of `.group(1)` on a failed search. -/
def circaOfUrl (url : String) : Option String := (circaSearch url.data).map String.mk

/-- The group of `re.search(r'^(.*) <', author)`: the longest prefix
followed by `" <"` (i.e. everything before the last `" <"`). -/
def nameBeforeLt : List Char → Option (List Char)
  | [] => none
  | c :: t =>
    match nameBeforeLt t with
    | some r => some (c :: r)
    | none => if c = ' ' && t.head? == some '<' then some [] else none

def authorName (a : String) : Option String := (nameBeforeLt a.data).map String.mk

/-- The group of `re.search(r'<(.*)>', author)`: everything between the
first `<` and the last `>` after it. -/
def emailInside (l : List Char) : Option (List Char) :=
  match l.dropWhile (fun c => c ≠ '<') with
  | [] => none
  | _ :: rest =>
    match rest.reverse.dropWhile (fun c => c ≠ '>') with
    | [] => none
    | _ :: r => some r.reverse

def authorEmail (a : String) : Option String := (emailInside a.data).map String.mk

/-- One commit, with every input `git commit` receives: the staged tree,
`--author`, `--date`, the committer environment, the message, and whether
`--allow-empty` was passed. -/
structure Commit where
  tree : Dir
  author : String
  date : String
  committerName : String
  committerEmail : String
  committerDate : String
  message : String
  allowEmpty : Bool
deriving DecidableEq

instance : Inhabited Commit :=
  ⟨⟨[], "", "", "", "", "", "", false⟩⟩

/-- Builder state across the per-version loop: the working directory, the
commits made so far, and the tree of the current HEAD (empty for a fresh
repository). -/
structure RepoState where
  dir : Dir
  commits : List Commit
  lastTree : Dir
deriving DecidableEq

/-- `(v, url, author) = l.strip().split(sep=None, maxsplit=2)`: `none` is
the `ValueError` when the line has fewer than three fields. -/
def split3 (l : String) : Option (String × String × String) :=
  let t := (pyStrip l).data
  let v := t.takeWhile (fun c => !c.isWhitespace)
  let r1 := (t.dropWhile (fun c => !c.isWhitespace)).dropWhile Char.isWhitespace
  let url := r1.takeWhile (fun c => !c.isWhitespace)
  let a := (r1.dropWhile (fun c => !c.isWhitespace)).dropWhile Char.isWhitespace
  if v.isEmpty || url.isEmpty || a.isEmpty then none
  else some (String.mk v, String.mk url, String.mk a)

/-- Reading the sourcelist file (lines 92-100): parse each line, abort on a
malformed line or on the sentinel author, build the `sources` dict. -/
def readSourcelist : List String → List (String × String × String) → Except String (List (String × String × String))
  | [], acc => .ok acc
  | l :: rest, acc =>
    match split3 l with
    | none => .error "ValueError: not enough values to unpack"
    | some (v, url, author) =>
      if author = DEFAULT_AUTHOR then .error "Unknown author still in sourcelist"
      else readSourcelist rest (setk acc v (url, author))

/-- Lines 120-165 of the per-version loop: fetch the archive, clean the
working directory down to `.git`, detect and apply layout stripping,
extract, remove upstream archives and signatures, and hoist g-b-s bundles.
`fetch` maps a URL to the list of members of the cached archive. -/
def prepareTree (package : String) (fetch : String → List (String × String))
    (dirIn : Dir) (v url : String) : Except String Dir :=
  let archive := fetch url
  let d0 := dirIn.filter (fun f => topName f == ".git")
  let strip := archiveStrip (archive.map Prod.fst)
  let d1 := tarExtract d0 archive strip
  match removeExts d1 with
  | .error e => .error e
  | .ok d2 => gbsHoist package v d2

/-- One iteration of the per-version loop (lines 116-187): prepare the tree,
apply the emptiness guard (`len(list(os.scandir('.'))) <= 1`), then derive
the commit metadata and commit.  Errors carry the state at the failure. -/
def stepVersion (package : String) (allowEmpty : Bool) (fetch : String → List (String × String))
    (st : RepoState) (r : String × String × String) : Except (String × RepoState) RepoState :=
  match r with
  | (v, url, author) =>
    match prepareTree package fetch st.dir v url with
    | .error e => .error (e, st)
    | .ok d3 =>
      if numEntries d3 ≤ 1 && !allowEmpty then .ok { st with dir := d3 }
      else
        match circaOfUrl url with
        | none => .error ("AttributeError: circa", { st with dir := d3 })
        | some circa =>
          let date := circa ++ " UTC"
          match authorName author with
          | none => .error ("AttributeError: committer name", { st with dir := d3 })
          | some cname =>
            match authorEmail author with
            | none => .error ("AttributeError: committer email", { st with dir := d3 })
            | some cemail =>
              let tree := d3.filter (fun f => !(topName f == ".git"))
              if !allowEmpty && tree == st.lastTree then
                .error ("git commit: nothing to commit", { st with dir := d3 })
              else
                .ok { dir := d3,
                      commits := st.commits ++ [{
                        tree := tree, author := author, date := date,
                        committerName := cname, committerEmail := cemail,
                        committerDate := date,
                        message := package ++ " " ++ v ++ "\n\nctm2git-circa: " ++ circa,
                        allowEmpty := allowEmpty }],
                      lastTree := tree }

/-- The `for v in sources` loop. -/
def runVersions (package : String) (allowEmpty : Bool) (fetch : String → List (String × String))
    (st : RepoState) : List (String × String × String) → Except (String × RepoState) RepoState
  | [] => .ok st
  | r :: rest =>
    match stepVersion package allowEmpty fetch st r with
    | .error e => .error e
    | .ok st' => runVersions package allowEmpty fetch st' rest

/-- Observable outcome of a run: whether `git init` ran, the commits made,
the fatal error if any, and the final working directory. -/
structure RunResult where
  inited : Bool
  commits : List Commit
  fatal : Option String
  dir : Dir
deriving DecidableEq

def renderRun (inited : Bool) (out : Except (String × RepoState) RepoState) : RunResult :=
  match out with
  | .ok st => ⟨inited, st.commits, none, st.dir⟩
  | .error (e, st) => ⟨inited, st.commits, some e, st.dir⟩

/-- `sourcelist_to_repo`: read and validate the sourcelist; on a fresh run
(`since` not supplied) require no `.git` and an empty working directory and
run `git init`; then replay every version.  `initLastTree` is the tree of
the commit `HEAD` points at before the run (empty for a fresh run). -/
def sourcelist_to_repo (package : String) (lines : List String) (since : Bool)
    (allowEmpty : Bool) (fetch : String → List (String × String))
    (initDir : Dir) (initLastTree : Dir) : RunResult :=
  match readSourcelist lines [] with
  | .error e => ⟨false, [], some e, initDir⟩
  | .ok sources =>
    if !since then
      if hasGit initDir then
        ⟨false, [], some "Working directory is already a git repo", initDir⟩
      else if numEntries initDir ≠ 0 then
        ⟨false, [], some "Working directory isn't empty", initDir⟩
      else
        renderRun true (runVersions package allowEmpty fetch
          ⟨initDir ++ [([".git"], "")], [], initLastTree⟩ sources)
    else
      renderRun false (runVersions package allowEmpty fetch ⟨initDir, [], initLastTree⟩ sources)

/-! ## Theorems -/

theorem lookupk_setk_self {α β : Type} [DecidableEq α]
    (m : List (α × β)) (k : α) (v : β) : lookupk (setk m k v) k = some v := by
  induction m with
  | nil => simp [setk, lookupk]
  | cons p t ih =>
    obtain ⟨k', v'⟩ := p
    by_cases h : k' = k <;> simp [setk, lookupk, h, ih]

theorem lookupk_setk_other {α β : Type} [DecidableEq α]
    (m : List (α × β)) (k k' : α) (v : β) (h : k' ≠ k) :
    lookupk (setk m k v) k' = lookupk m k' := by
  induction m with
  | nil => simp [setk, lookupk, Ne.symm h]
  | cons p t ih =>
    obtain ⟨k₀, v₀⟩ := p
    by_cases h0 : k₀ = k
    · subst h0
      simp [setk, lookupk, Ne.symm h]
    · simp only [setk, if_neg h0, lookupk]
      by_cases h1 : k₀ = k' <;> simp [h1, ih]

theorem setk_keys {α β : Type} [DecidableEq α] (m : List (α × β)) (k : α) (v : β) :
    (setk m k v).map Prod.fst =
      if k ∈ m.map Prod.fst then m.map Prod.fst else m.map Prod.fst ++ [k] := by
  induction m with
  | nil => simp [setk]
  | cons p t ih =>
    obtain ⟨k₀, v₀⟩ := p
    by_cases h0 : k₀ = k
    · subst h0
      simp [setk]
    · simp only [setk, if_neg h0, List.map_cons, ih, List.mem_cons]
      by_cases hm : k ∈ t.map Prod.fst
      · simp [hm, Ne.symm h0]
      · simp [hm, Ne.symm h0]

theorem setk_keys_nodup {α β : Type} [DecidableEq α]
    (m : List (α × β)) (k : α) (v : β) (h : (m.map Prod.fst).Nodup) :
    ((setk m k v).map Prod.fst).Nodup := by
  rw [setk_keys]
  by_cases hm : k ∈ m.map Prod.fst
  · simpa [hm] using h
  · simp only [if_neg hm]
    simp [List.nodup_append, h, hm]

theorem getD_append_lt {α : Type} (l₁ l₂ : List α) (j : Nat) (d : α)
    (h : j < l₁.length) : (l₁ ++ l₂).getD j d = l₁.getD j d := by
  induction l₁ generalizing j with
  | nil => simp at h
  | cons a t ih =>
    cases j with
    | zero => simp [List.getD]
    | succ j =>
      simp only [List.length_cons, Nat.succ_lt_succ_iff] at h
      simpa [List.getD] using ih j h

theorem getD_append_length {α : Type} (l₁ : List α) (a d : α) :
    (l₁ ++ [a]).getD l₁.length d = a := by
  induction l₁ with
  | nil => simp [List.getD]
  | cons b t ih => simp only [List.cons_append, List.length_cons, List.getD_cons_succ]; exact ih

theorem take_append_le {α : Type} (l₁ l₂ : List α) (j : Nat) (h : j ≤ l₁.length) :
    (l₁ ++ l₂).take j = l₁.take j := by
  induction l₁ generalizing j with
  | nil =>
    have hj : j = 0 := Nat.le_zero.mp h
    subst hj
    simp
  | cons a t ih =>
    cases j with
    | zero => simp
    | succ j =>
      simp only [List.length_cons, Nat.succ_le_succ_iff] at h
      simp [ih j h]

theorem take_append_self {α : Type} (l₁ l₂ : List α) :
    (l₁ ++ l₂).take l₁.length = l₁ := by
  rw [take_append_le l₁ l₂ _ (Nat.le_refl _), List.take_length]

/-! Mutual exclusion of the three line kinds (their literal prefixes start
with different characters). -/

theorem startsWith_head (l pre : String) (c : Char) (t : List Char)
    (hp : pre.data = c :: t) (h : pyStartsWith l pre = true) :
    ∃ r, l.data = c :: r := by
  unfold pyStartsWith at h
  rw [hp] at h
  cases hd : l.data with
  | nil => rw [hd] at h; simp [List.isPrefixOf] at h
  | cons c' r =>
    rw [hd] at h
    simp only [List.isPrefixOf, Bool.and_eq_true, beq_iff_eq] at h
    exact ⟨r, by rw [h.1]⟩

theorem block_not_version (l : String) (h : isBlockLine l = true) :
    isVersionLine l = false := by
  obtain ⟨r, hr⟩ := startsWith_head l "@" '@' [] rfl h
  unfold isVersionLine pyStartsWith
  rw [hr]
  rfl

theorem block_not_source (l : String) (h : isBlockLine l = true) :
    isSourceLine l = false := by
  obtain ⟨r, hr⟩ := startsWith_head l "@" '@' [] rfl h
  unfold isSourceLine pyStartsWith
  rw [hr]
  rfl

theorem version_not_source (l : String) (h : isVersionLine l = true) :
    isSourceLine l = false := by
  obtain ⟨r, hr⟩ := startsWith_head l "version:" 'v' "ersion:".data rfl h
  unfold isSourceLine pyStartsWith
  rw [hr]
  rfl

/-! Behaviour of the positional description under appending one line. -/

theorem lastP_append (lines : List String) (l : String) :
    lastP (lines ++ [l]) = if isBlockLine l then some (blockName l) else lastP lines := by
  simp [lastP, List.foldl_append]

theorem lastV_append (lines : List String) (l : String) :
    lastV (lines ++ [l]) = if isVersionLine l then some (versionVal l) else lastV lines := by
  simp [lastV, List.foldl_append]

theorem qualifiesIdx_append (package : String) (lines : List String) (l : String)
    (j : Nat) (v : String) (hj : j < lines.length) :
    qualifiesIdx package (lines ++ [l]) j v = qualifiesIdx package lines j v := by
  unfold qualifiesIdx
  rw [getD_append_lt _ _ _ _ hj, take_append_le _ _ _ (Nat.le_of_lt hj)]
  have h1 : j < (lines ++ [l]).length := by
    simp only [List.length_append, List.length_cons, List.length_nil]
    omega
  have h2 : j < lines.length + 1 := Nat.lt_succ_of_lt hj
  simp [hj, h1, h2]

theorem qualifiesIdx_last (package : String) (lines : List String) (l : String) (v : String) :
    qualifiesIdx package (lines ++ [l]) lines.length v =
      (isSourceLine l && (lastP lines == some package) && (lastV lines == some v)) := by
  unfold qualifiesIdx
  rw [getD_append_length, take_append_self]
  have h1 : lines.length < (lines ++ [l]).length := by
    simp only [List.length_append, List.length_cons, List.length_nil]
    omega
  simp [h1]

theorem lastQualTok_append (package : String) (lines : List String) (l : String) (v : String) :
    lastQualTok package (lines ++ [l]) v =
      if isSourceLine l && (lastP lines == some package) && (lastV lines == some v)
      then sourceTok l else lastQualTok package lines v := by
  unfold lastQualTok
  have hlen : (lines ++ [l]).length = lines.length + 1 := by
    simp
  rw [hlen, List.range_succ, List.foldl_append]
  have hfold :
      (List.range lines.length).foldl
        (fun acc j => if qualifiesIdx package (lines ++ [l]) j v
          then sourceTok ((lines ++ [l]).getD j "") else acc) none =
      (List.range lines.length).foldl
        (fun acc j => if qualifiesIdx package lines j v
          then sourceTok (lines.getD j "") else acc) none := by
    apply List.foldl_ext
    intro acc j hj
    have hjlt : j < lines.length := List.mem_range.mp hj
    rw [qualifiesIdx_append _ _ _ _ _ hjlt, getD_append_lt _ _ _ _ hjlt]
  rw [hfold]
  simp only [List.foldl_cons, List.foldl_nil, qualifiesIdx_last, getD_append_length]

theorem runIni_append (package : String) (st : IniState) (l₁ l₂ : List String) :
    runIni package st (l₁ ++ l₂) =
      match runIni package st l₁ with
      | .error e => .error e
      | .ok st' => runIni package st' l₂ := by
  induction l₁ generalizing st with
  | nil => simp [runIni]
  | cons a t ih =>
    simp only [List.cons_append, runIni]
    cases iniLine package st a with
    | error e => rfl
    | ok st1 => exact ih st1

/-- Complete characterization of one `parse_setup_ini` run: the final `p`
and `v` are the most recent block name and version value, the dict's keys
are unique, and each version maps to the token of the *last* `source:` line
recorded for it. -/
theorem runIni_spec (package : String) (lines : List String) (st' : IniState)
    (h : runIni package ⟨none, none, []⟩ lines = .ok st') :
    st'.p = lastP lines ∧ st'.v = lastV lines ∧
    (st'.parsed.map Prod.fst).Nodup ∧
    ∀ v, lookupk st'.parsed v = lastQualTok package lines v := by
  induction lines using List.reverseRecOn generalizing st' with
  | nil =>
    simp only [runIni, Except.ok.injEq] at h
    subst h
    refine ⟨rfl, rfl, by simp, fun v => rfl⟩
  | append_singleton lines l ih =>
    rw [runIni_append] at h
    cases hrun : runIni package ⟨none, none, []⟩ lines with
    | error e => rw [hrun] at h; simp at h
    | ok st₁ =>
      rw [hrun] at h
      simp only [runIni] at h
      cases hline : iniLine package st₁ l with
      | error e => rw [hline] at h; simp at h
      | ok st₂ =>
        rw [hline] at h
        simp only [runIni, Except.ok.injEq] at h
        subst h
        obtain ⟨ihp, ihv, ihnd, ihl⟩ := ih st₁ hrun
        unfold iniLine at hline
        by_cases hb : pyStartsWith l "@" = true
        · have hB : isBlockLine l = true := hb
          have hV : isVersionLine l = false := block_not_version l hB
          have hS : isSourceLine l = false := block_not_source l hB
          rw [if_pos hb] at hline
          simp only [Except.ok.injEq] at hline
          subst hline
          refine ⟨?_, ?_, ihnd, ?_⟩
          · simp [lastP_append, hB, blockName]
          · simp [lastV_append, hV, ihv]
          · intro v
            rw [lastQualTok_append]
            simp [hS, ihl v]
        · have hB : isBlockLine l = false := by simpa using hb
          rw [if_neg hb] at hline
          by_cases hv : pyStartsWith l "version:" = true
          · have hV : isVersionLine l = true := hv
            have hS : isSourceLine l = false := version_not_source l hV
            rw [if_pos hv] at hline
            simp only [Except.ok.injEq] at hline
            subst hline
            refine ⟨?_, ?_, ihnd, ?_⟩
            · simp [lastP_append, hB, ihp]
            · simp [lastV_append, hV, versionVal]
            · intro v
              rw [lastQualTok_append]
              simp [hS, ihl v]
          · rw [if_neg hv] at hline
            by_cases hs : pyStartsWith l "source:" = true
            · have hS : isSourceLine l = true := hs
              rw [if_pos hs] at hline
              cases htok : splitWs (pyDrop l 8) with
              | nil => rw [htok] at hline; simp at hline
              | cons s rest =>
                rw [htok] at hline
                dsimp only at hline
                cases hp : st₁.p with
                | none => rw [hp] at hline; simp at hline
                | some p =>
                  rw [hp] at hline
                  dsimp only at hline
                  by_cases hpp : p = package
                  · rw [if_pos hpp] at hline
                    cases hvv : st₁.v with
                    | none => rw [hvv] at hline; simp at hline
                    | some vv =>
                      rw [hvv] at hline
                      simp only [Except.ok.injEq] at hline
                      subst hline
                      have hPzero : lastP lines = some package := by
                        rw [← ihp, hp, hpp]
                      have hVzero : lastV lines = some vv := by
                        rw [← ihv, hvv]
                      refine ⟨?_, ?_, setk_keys_nodup _ _ _ ihnd, ?_⟩
                      · simp only [lastP_append, hB, if_false, Bool.false_eq_true]
                        rw [hPzero, hpp]
                      · have hV : isVersionLine l = false := by
                          simpa using hv
                        simp only [lastV_append, hV, if_false, Bool.false_eq_true]
                        rw [hVzero]
                      · intro v
                        rw [lastQualTok_append]
                        by_cases hveq : v = vv
                        · subst hveq
                          simp only [hS, hPzero, hVzero, beq_self_eq_true,
                            Bool.and_self, if_pos, Bool.true_and]
                          rw [lookupk_setk_self]
                          simp [sourceTok, htok]
                        · have hne : (some vv == some v) = false := by
                            simp [Ne.symm hveq]
                          rw [lookupk_setk_other _ _ _ _ hveq, ihl v]
                          simp [hS, hPzero, hVzero, hne]
                  · rw [if_neg hpp] at hline
                    simp only [Except.ok.injEq] at hline
                    subst hline
                    have hPzero : lastP lines = some p := by rw [← ihp, hp]
                    refine ⟨?_, ?_, ihnd, ?_⟩
                    · simp [lastP_append, hB, ihp]
                    · have hV : isVersionLine l = false := by simpa using hv
                      simp [lastV_append, hV, ihv]
                    · intro v
                      rw [lastQualTok_append]
                      have : (lastP lines == some package) = false := by
                        simp [hPzero, hpp]
                      simp [this, ihl v]
            · have hS : isSourceLine l = false := by simpa using hs
              rw [if_neg hs] at hline
              simp only [Except.ok.injEq] at hline
              subst hline
              refine ⟨?_, ?_, ihnd, ?_⟩
              · simp [lastP_append, hB, ihp]
              · have hV : isVersionLine l = false := by simpa using hv
                simp [lastV_append, hV, ihv]
              · intro v
                rw [lastQualTok_append]
                simp [hS, ihl v]

/-- Totality of the parser on well-formed inputs: if every `source:` line
has a token, follows some `@ ` line, and (when its block names the target
package) follows some `version:` line, then the run raises no error. -/
theorem runIni_total (package : String) (lines : List String)
    (hwf : ∀ j, j < lines.length → isSourceLine (lines.getD j "") = true →
      sourceTok (lines.getD j "") ≠ none ∧ lastP (lines.take j) ≠ none ∧
      (lastP (lines.take j) = some package → lastV (lines.take j) ≠ none)) :
    ∃ st', runIni package ⟨none, none, []⟩ lines = .ok st' := by
  induction lines using List.reverseRecOn with
  | nil => exact ⟨⟨none, none, []⟩, rfl⟩
  | append_singleton lines l ih =>
    have hwf' : ∀ j, j < lines.length → isSourceLine (lines.getD j "") = true →
        sourceTok (lines.getD j "") ≠ none ∧ lastP (lines.take j) ≠ none ∧
        (lastP (lines.take j) = some package → lastV (lines.take j) ≠ none) := by
      intro j hj hsrc
      have hj' : j < (lines ++ [l]).length := by
        simp only [List.length_append, List.length_cons, List.length_nil]
        omega
      have := hwf j hj'
      rw [getD_append_lt _ _ _ _ hj, take_append_le _ _ _ (Nat.le_of_lt hj)] at this
      exact this hsrc
    obtain ⟨st₁, h₁⟩ := ih hwf'
    rw [runIni_append, h₁]
    obtain ⟨ihp, ihv, -, -⟩ := runIni_spec package lines st₁ h₁
    suffices hline : ∃ st₂, iniLine package st₁ l = .ok st₂ by
      obtain ⟨st₂, h₂⟩ := hline
      exact ⟨st₂, by simp [runIni, h₂]⟩
    unfold iniLine
    by_cases hb : pyStartsWith l "@" = true
    · exact ⟨_, by rw [if_pos hb]⟩
    · rw [if_neg hb]
      by_cases hv : pyStartsWith l "version:" = true
      · exact ⟨_, by rw [if_pos hv]⟩
      · rw [if_neg hv]
        by_cases hs : pyStartsWith l "source:" = true
        · rw [if_pos hs]
          have hlen : lines.length < (lines ++ [l]).length := by
            simp only [List.length_append, List.length_cons, List.length_nil]
            omega
          have hlast := hwf lines.length hlen
          rw [getD_append_length, take_append_self] at hlast
          obtain ⟨htok, hp, hpv⟩ := hlast hs
          cases htoke : splitWs (pyDrop l 8) with
          | nil =>
            exfalso
            apply htok
            simp [sourceTok, htoke]
          | cons s rest =>
            cases hpe : st₁.p with
            | none => exact absurd (by rw [← ihp, hpe]) hp
            | some p =>
              dsimp only
              by_cases hpp : p = package
              · rw [if_pos hpp]
                have hlv : lastV lines ≠ none := by
                  apply hpv
                  rw [← ihp, hpe, hpp]
                cases hve : st₁.v with
                | none => exact absurd (by rw [← ihv, hve]) hlv
                | some vv => exact ⟨_, rfl⟩
              · rw [if_neg hpp]
                exact ⟨st₁, rfl⟩
        · rw [if_neg hs]
          exact ⟨st₁, rfl⟩

/-- C4, counterexample: in the text `@ p / version: 1.0 / source: a x /
source: b y` the line `source: a x` satisfies the claim's condition for
version `1.0` with token `a` (it follows the `version: 1.0` line before any
further `version:` line, inside the block `p`), yet the parser maps `1.0`
to `b` — the token of the *last* qualifying source line — so the claimed
"exactly when" equivalence fails and not all pairs are captured. -/
theorem C4_counterexample :
    parse_setup_ini "@ p\nversion: 1.0\nsource: a x\nsource: b y" "p" = .ok [("1.0", "b")] ∧
    qualifiesAt "p" (pySplitOn "@ p\nversion: 1.0\nsource: a x\nsource: b y" '\n')
      2 "1.0" "a" = true ∧
    lookupk [("1.0", "b")] "1.0" ≠ some "a" := by
  refine ⟨by decide, by decide, by decide⟩

/-- C4 (amended): for every input on which `parse_setup_ini` returns, the
resulting mapping sends each version `v` exactly to the first
whitespace-delimited token of the *last* `source:` line that qualifies for
`v` (a `source:` line preceded — before any further `version:` line — by a
`version:` line with value `v`, inside a block naming the target package),
and to nothing when no such line exists. -/
theorem C4_parse_records_last_qualifying (contents package : String)
    (m : List (String × String)) (h : parse_setup_ini contents package = .ok m)
    (v : String) :
    lookupk m v = lastQualTok package (pySplitOn contents '\n') v := by
  unfold parse_setup_ini at h
  cases hrun : runIni package ⟨none, none, []⟩ (pySplitOn contents '\n') with
  | error e => rw [hrun] at h; simp at h
  | ok st' =>
    rw [hrun] at h
    simp only [Except.ok.injEq] at h
    subst h
    exact (runIni_spec _ _ _ hrun).2.2.2 v

theorem C4_witness :
    lookupk [("1.0", "x.tar")] "1.0" =
      lastQualTok "p" (pySplitOn "@ p\nversion: 1.0\nsource: x.tar 123" '\n') "1.0" :=
  C4_parse_records_last_qualifying "@ p\nversion: 1.0\nsource: x.tar 123" "p"
    [("1.0", "x.tar")] (by decide) "1.0"

/-- C5, counterexample: the parser is not total — on the input consisting of
the single line `source: x` (a `source:` line with no preceding `@ ` block
header) it raises `UnboundLocalError` for `p` instead of returning a
mapping. -/
theorem C5_counterexample :
    parse_setup_ini "source: x" "p" = .error "UnboundLocalError: p" := by decide

/-- C5 (amended): the parser returns a mapping without raising for every
input in which each `source:` line has a nonempty value, is preceded by
some `@ ` block line, and — whenever its enclosing block names the target
package — by some `version:` line; in particular blocks whose package name
does not match contribute no record and raise nothing. -/
theorem C5_parse_total_wellformed (contents package : String)
    (hwf : ∀ j, j < (pySplitOn contents '\n').length →
      isSourceLine ((pySplitOn contents '\n').getD j "") = true →
      sourceTok ((pySplitOn contents '\n').getD j "") ≠ none ∧
      lastP ((pySplitOn contents '\n').take j) ≠ none ∧
      (lastP ((pySplitOn contents '\n').take j) = some package →
        lastV ((pySplitOn contents '\n').take j) ≠ none)) :
    ∃ m, parse_setup_ini contents package = .ok m := by
  obtain ⟨st', h⟩ := runIni_total package _ hwf
  refine ⟨st'.parsed, ?_⟩
  unfold parse_setup_ini
  rw [h]

theorem C5_witness :
    ∃ m, parse_setup_ini "@ q\nsource: skip.tar\n@ p\nversion: 1.0\nsource: s.tar" "p" =
      .ok m :=
  C5_parse_total_wellformed "@ q\nsource: skip.tar\n@ p\nversion: 1.0\nsource: s.tar" "p"
    (by decide)

theorem lookupk_of_not_mem_keys {α β : Type} [DecidableEq α]
    (s : List (α × β)) (v : α) (h : v ∉ s.map Prod.fst) : lookupk s v = none := by
  induction s with
  | nil => rfl
  | cons p t ih =>
    obtain ⟨k, w⟩ := p
    simp only [List.map_cons, List.mem_cons, not_or] at h
    simp only [lookupk, if_neg (Ne.symm h.1)]
    exact ih h.2

theorem parse_setup_ini_keys_nodup (contents package : String) (m : List (String × String))
    (h : parse_setup_ini contents package = .ok m) : (m.map Prod.fst).Nodup := by
  unfold parse_setup_ini at h
  cases hrun : runIni package ⟨none, none, []⟩ (pySplitOn contents '\n') with
  | error e => rw [hrun] at h; simp at h
  | ok st' =>
    rw [hrun] at h
    simp only [Except.ok.injEq] at h
    subst h
    exact (runIni_spec _ _ _ hrun).2.2.1

theorem inner_lookup_none (keep : String → Bool) (circa : String)
    (s m : List (String × String)) (v : String) (hnone : lookupk s v = none) :
    lookupk (s.foldl (fun m q => if keep q.1 then setk m q.1 (circa ++ "/" ++ q.2) else m) m) v =
      lookupk m v := by
  induction s generalizing m with
  | nil => rfl
  | cons q t ih =>
    obtain ⟨k, w⟩ := q
    simp only [lookupk] at hnone
    by_cases hk : k = v
    · rw [if_pos hk] at hnone
      exact absurd hnone (by simp)
    · rw [if_neg hk] at hnone
      simp only [List.foldl_cons]
      rw [ih _ hnone]
      by_cases hkeep : keep k = true
      · rw [if_pos hkeep, lookupk_setk_other _ _ _ _ (Ne.symm hk)]
      · rw [if_neg hkeep]

theorem inner_lookup_some (keep : String → Bool) (circa : String)
    (s m : List (String × String)) (v u : String) (hkeep : keep v = true)
    (hnd : (s.map Prod.fst).Nodup) (hu : lookupk s v = some u) :
    lookupk (s.foldl (fun m q => if keep q.1 then setk m q.1 (circa ++ "/" ++ q.2) else m) m) v =
      some (circa ++ "/" ++ u) := by
  induction s generalizing m with
  | nil => simp [lookupk] at hu
  | cons q t ih =>
    obtain ⟨k, w⟩ := q
    simp only [List.map_cons, List.nodup_cons] at hnd
    simp only [lookupk] at hu
    by_cases hk : k = v
    · rw [if_pos hk] at hu
      simp only [Option.some.injEq] at hu
      subst hk
      subst hu
      have htv : lookupk t k = none :=
        lookupk_of_not_mem_keys t k hnd.1
      simp only [List.foldl_cons, if_pos hkeep]
      rw [inner_lookup_none keep circa t _ k htv, lookupk_setk_self]
    · rw [if_neg hk] at hu
      simp only [List.foldl_cons]
      by_cases hkk : keep k = true
      · rw [if_pos hkk]
        exact ih _ hnd.2 hu
      · rw [if_neg hkk]
        exact ih _ hnd.2 hu

theorem ctmLoop_append (package : String) (keep : String → Bool)
    (sources : List (String × String)) (l₁ l₂ : List (String × String)) :
    ctmLoop package keep sources (l₁ ++ l₂) =
      match ctmLoop package keep sources l₁ with
      | .error e => .error e
      | .ok m => ctmLoop package keep m l₂ := by
  induction l₁ generalizing sources with
  | nil => simp [ctmLoop]
  | cons a t ih =>
    obtain ⟨c, txt⟩ := a
    simp only [List.cons_append, ctmLoop]
    cases parse_setup_ini txt package with
    | error e => rfl
    | ok s => exact ih _

theorem ctmLoop_lookup_none (package : String) (keep : String → Bool)
    (snaps : List (String × String)) (sources out : List (String × String)) (v : String)
    (hrun : ctmLoop package keep sources snaps = .ok out)
    (hnone : ∀ c t s, (c, t) ∈ snaps → parse_setup_ini t package = .ok s →
      lookupk s v = none) :
    lookupk out v = lookupk sources v := by
  induction snaps generalizing sources with
  | nil =>
    simp only [ctmLoop, Except.ok.injEq] at hrun
    rw [hrun]
  | cons a rest ih =>
    obtain ⟨c, txt⟩ := a
    simp only [ctmLoop] at hrun
    cases hparse : parse_setup_ini txt package with
    | error e => rw [hparse] at hrun; simp at hrun
    | ok s =>
      rw [hparse] at hrun
      have hstep := inner_lookup_none keep c s sources v
        (hnone c txt s (by simp) hparse)
      rw [ih _ hrun (fun c' t' s' hm hp => hnone c' t' s' (by simp [hm]) hp), hstep]

theorem ctmLoop_lookup_hit (package : String) (keep : String → Bool)
    (c t : String) (post : List (String × String))
    (sources out s : List (String × String)) (v u : String)
    (hrun : ctmLoop package keep sources ((c, t) :: post) = .ok out)
    (hparse : parse_setup_ini t package = .ok s)
    (hv : lookupk s v = some u) (hkeep : keep v = true)
    (hpost : ∀ c' t' s', (c', t') ∈ post → parse_setup_ini t' package = .ok s' →
      lookupk s' v = none) :
    lookupk out v = some (c ++ "/" ++ u) := by
  simp only [ctmLoop] at hrun
  rw [hparse] at hrun
  rw [ctmLoop_lookup_none package keep post _ out v hrun hpost]
  exact inner_lookup_some keep c s sources v u hkeep
    (parse_setup_ini_keys_nodup t package s hparse) hv

/-- C1 (confirmed): with snapshots listed newest first, if snapshots S1
(newer) and S2 (older) both define version V (V passing the `since`
filter), and no snapshot older than S2 mentions V, then the sourcelist
built by `ctm_to_sourcelist` maps V to S2's URL — the oldest snapshot
mentioning V wins, because older snapshots are visited later and their
`sources[version] = circa + '/' + relative_url` write is unconditional. -/
theorem C1_oldest_snapshot_wins (package : String) (keep : String → Bool)
    (pre mid post : List (String × String)) (c1 t1 c2 t2 : String)
    (s1 s2 out : List (String × String)) (V u1 u2 : String)
    (hrun : ctm_to_sourcelist package keep
      (pre ++ (c1, t1) :: mid ++ (c2, t2) :: post) = .ok out)
    (hp1 : parse_setup_ini t1 package = .ok s1)
    (hp2 : parse_setup_ini t2 package = .ok s2)
    (hv1 : lookupk s1 V = some u1)
    (hv2 : lookupk s2 V = some u2)
    (hkeep : keep V = true)
    (hpost : ∀ c' t' s', (c', t') ∈ post → parse_setup_ini t' package = .ok s' →
      lookupk s' V = none) :
    lookupk out V = some (c2 ++ "/" ++ u2) := by
  unfold ctm_to_sourcelist at hrun
  have hassoc : pre ++ (c1, t1) :: mid ++ (c2, t2) :: post =
      (pre ++ (c1, t1) :: mid) ++ ((c2, t2) :: post) := by
    simp [List.append_assoc]
  rw [hassoc, ctmLoop_append] at hrun
  cases hmid : ctmLoop package keep [] (pre ++ (c1, t1) :: mid) with
  | error e => rw [hmid] at hrun; simp at hrun
  | ok m1 =>
    rw [hmid] at hrun
    exact ctmLoop_lookup_hit package keep c2 t2 post m1 out s2 V u2
      hrun hp2 hv2 hkeep hpost

theorem C1_witness :
    lookupk [("2.0", "http://B/old.tar")] "2.0" = some ("http://B" ++ "/" ++ "old.tar") :=
  C1_oldest_snapshot_wins "p" (fun _ => true) [] [] []
    "http://A" "@ p\nversion: 2.0\nsource: new.tar" "http://B" "@ p\nversion: 2.0\nsource: old.tar"
    [("2.0", "new.tar")] [("2.0", "old.tar")] [("2.0", "http://B/old.tar")]
    "2.0" "new.tar" "old.tar"
    (by decide) (by decide) (by decide) (by decide) (by decide) rfl
    (by intro c' t' s' hm _; simp at hm)

theorem stepVersion_fetch_congr (package : String) (allowEmpty : Bool)
    (fetch1 fetch2 : String → List (String × String)) (st : RepoState)
    (r : String × String × String) (h : fetch1 r.2.1 = fetch2 r.2.1) :
    stepVersion package allowEmpty fetch1 st r = stepVersion package allowEmpty fetch2 st r := by
  obtain ⟨v, url, author⟩ := r
  simp only at h
  unfold stepVersion prepareTree
  dsimp only
  rw [h]

theorem runVersions_fetch_congr (package : String) (allowEmpty : Bool)
    (fetch1 fetch2 : String → List (String × String))
    (records : List (String × String × String)) (st : RepoState)
    (h : ∀ r ∈ records, fetch1 r.2.1 = fetch2 r.2.1) :
    runVersions package allowEmpty fetch1 st records =
      runVersions package allowEmpty fetch2 st records := by
  induction records generalizing st with
  | nil => rfl
  | cons r rest ih =>
    simp only [runVersions]
    rw [stepVersion_fetch_congr package allowEmpty fetch1 fetch2 st r (h r (by simp))]
    cases stepVersion package allowEmpty fetch2 st r with
    | error e => rfl
    | ok st' => exact ih st' (fun r' hr => h r' (by simp [hr]))

/-- C2 (confirmed): the Repository Builder is deterministic — two runs on
fresh empty working directories with the same sourcelist and with archive
caches that agree on every URL in the sourcelist produce identical results:
the same commits (tree contents, author, author/committer dates, message)
in the same order.  Every input to a commit is a function of the sourcelist
record and the fetched archive alone. -/
theorem C2_builder_deterministic (package : String) (lines : List String) (allowEmpty : Bool)
    (fetch1 fetch2 : String → List (String × String)) (lt d1 d2 : Dir)
    (src : List (String × String × String))
    (hsrc : readSourcelist lines [] = .ok src)
    (hd1 : d1 = []) (hd2 : d2 = [])
    (hagree : ∀ r ∈ src, fetch1 r.2.1 = fetch2 r.2.1) :
    sourcelist_to_repo package lines false allowEmpty fetch1 d1 lt =
      sourcelist_to_repo package lines false allowEmpty fetch2 d2 lt := by
  subst hd1
  subst hd2
  unfold sourcelist_to_repo
  rw [hsrc]
  have h1 : hasGit ([] : Dir) = false := rfl
  have h2 : numEntries ([] : Dir) = 0 := rfl
  simp only [h1, h2, Bool.not_false, if_true, ne_eq, not_true_eq_false, if_false,
    Bool.false_eq_true, List.nil_append]
  rw [runVersions_fetch_congr package allowEmpty fetch1 fetch2 src _ hagree]

theorem C2_witness :
    sourcelist_to_repo "p" ["1.0 http://h/circa/2004/01/02/x A <a@b>"] false false
      (fun u => if u = "http://h/circa/2004/01/02/x" then [("f.c", "x")] else [("g.c", "y")])
      [] [] =
    sourcelist_to_repo "p" ["1.0 http://h/circa/2004/01/02/x A <a@b>"] false false
      (fun u => if u = "http://h/circa/2004/01/02/x" then [("f.c", "x")] else [("h.c", "z")])
      [] [] :=
  C2_builder_deterministic "p" ["1.0 http://h/circa/2004/01/02/x A <a@b>"] false
    (fun u => if u = "http://h/circa/2004/01/02/x" then [("f.c", "x")] else [("g.c", "y")])
    (fun u => if u = "http://h/circa/2004/01/02/x" then [("f.c", "x")] else [("h.c", "z")])
    [] [] [] [("1.0", ("http://h/circa/2004/01/02/x", "A <a@b>"))]
    (by decide) rfl rfl (by decide)

theorem readSourcelist_sentinel (lines : List String)
    (acc : List (String × String × String))
    (hsent : ∃ l ∈ lines, ∃ v url, split3 l = some (v, url, DEFAULT_AUTHOR)) :
    ∃ e, readSourcelist lines acc = .error e := by
  induction lines generalizing acc with
  | nil => simp at hsent
  | cons l rest ih =>
    obtain ⟨l', hl', v, url, hsp⟩ := hsent
    simp only [readSourcelist]
    cases hs : split3 l with
    | none => exact ⟨_, rfl⟩
    | some t =>
      obtain ⟨v0, url0, a0⟩ := t
      dsimp only
      by_cases ha : a0 = DEFAULT_AUTHOR
      · rw [if_pos ha]
        exact ⟨_, rfl⟩
      · rw [if_neg ha]
        apply ih
        rcases List.mem_cons.mp hl' with heq | hmem
        · subst heq
          rw [hsp] at hs
          simp only [Option.some.injEq, Prod.mk.injEq] at hs
          exact absurd hs.2.2.symm ha
        · exact ⟨l', hmem, v, url, hsp⟩

/-- C6 (confirmed): if any sourcelist line carries the sentinel author
`unknown <unknown@unknown.invalid>`, the Repository Builder terminates
fatally during sourcelist reading — before `git init`, before any commit,
and with the working directory untouched. -/
theorem C6_sentinel_author_rejected (package : String) (lines : List String)
    (since allowEmpty : Bool) (fetch : String → List (String × String)) (initDir lt : Dir)
    (hsent : ∃ l ∈ lines, ∃ v url, split3 l = some (v, url, DEFAULT_AUTHOR)) :
    ∃ e, sourcelist_to_repo package lines since allowEmpty fetch initDir lt =
      ⟨false, [], some e, initDir⟩ := by
  obtain ⟨e, he⟩ := readSourcelist_sentinel lines [] hsent
  refine ⟨e, ?_⟩
  unfold sourcelist_to_repo
  rw [he]

theorem C6_witness :
    ∃ e, sourcelist_to_repo "p" ["1.0 http://x unknown <unknown@unknown.invalid>"]
      false false (fun _ => [("a.c", "x")]) [] [] =
      ⟨false, [], some e, []⟩ :=
  C6_sentinel_author_rejected "p" ["1.0 http://x unknown <unknown@unknown.invalid>"]
    false false (fun _ => [("a.c", "x")]) [] []
    ⟨"1.0 http://x unknown <unknown@unknown.invalid>", by simp, "1.0", "http://x", by decide⟩

/-- C7 (confirmed): on a fresh run (`since` not supplied) the Repository
Builder exits fatally — without `git init` and without committing — when
the working directory contains `.git`, or otherwise is non-empty; when
`since` is supplied both checks and the `git init` are skipped and the loop
runs directly on the existing directory. -/
theorem C7_fresh_run_preconditions (package : String) (lines : List String)
    (allowEmpty : Bool) (fetch : String → List (String × String)) (initDir lt : Dir)
    (src : List (String × String × String))
    (hsrc : readSourcelist lines [] = .ok src) :
    (hasGit initDir = true →
      sourcelist_to_repo package lines false allowEmpty fetch initDir lt =
        ⟨false, [], some "Working directory is already a git repo", initDir⟩) ∧
    (hasGit initDir = false → numEntries initDir ≠ 0 →
      sourcelist_to_repo package lines false allowEmpty fetch initDir lt =
        ⟨false, [], some "Working directory isn't empty", initDir⟩) ∧
    (sourcelist_to_repo package lines true allowEmpty fetch initDir lt =
      renderRun false (runVersions package allowEmpty fetch ⟨initDir, [], lt⟩ src)) := by
  refine ⟨?_, ?_, ?_⟩
  · intro hg
    unfold sourcelist_to_repo
    rw [hsrc]
    simp [hg]
  · intro hg hne
    unfold sourcelist_to_repo
    rw [hsrc]
    simp [hg, hne]
  · unfold sourcelist_to_repo
    rw [hsrc]
    simp

theorem C7_witness :
    sourcelist_to_repo "p" ["1.0 http://u A <a@b>"] false false (fun _ => [])
      [([".git"], "")] [] =
      ⟨false, [], some "Working directory is already a git repo", [([".git"], "")]⟩ :=
  (C7_fresh_run_preconditions "p" ["1.0 http://u A <a@b>"] false (fun _ => [])
    [([".git"], "")] [] [("1.0", ("http://u", "A <a@b>"))] (by decide)).1 (by decide)

/-- C3, counterexample: the code's guard is `len(list(os.scandir('.'))) <= 1`
*including* `.git`.  A fresh run on a sourcelist with one version whose
archive holds a single file produces a tree of two entries (`.git` plus the
file), so a commit IS created with `allow_empty` unset, although the tree
contains exactly one entry excluding the VCS metadata directory — which the
claim says must not be committed. -/
theorem C3_counterexample :
    (sourcelist_to_repo "p" ["1.0 http://h/circa/2004/05/06/p-src.tar.bz2 A B <a@b>"]
      false false (fun _ => [("a.txt", "x")]) [] []).commits.length = 1 ∧
    ((sourcelist_to_repo "p" ["1.0 http://h/circa/2004/05/06/p-src.tar.bz2 A B <a@b>"]
      false false (fun _ => [("a.txt", "x")]) [] []).commits.headD default).tree =
      [(["a.txt"], "x")] ∧
    numEntries ((sourcelist_to_repo "p"
      ["1.0 http://h/circa/2004/05/06/p-src.tar.bz2 A B <a@b>"]
      false false (fun _ => [("a.txt", "x")]) [] []).commits.headD default).tree ≤ 1 := by
  refine ⟨by decide, by decide, by decide⟩

theorem small_tree_filter_git (d3 : Dir) (hsmall : numEntries d3 ≤ 1)
    (hg : hasGit d3 = true) :
    d3.filter (fun f => !(topName f == ".git")) = [] := by
  obtain ⟨g, hgmem, hgname⟩ := List.any_eq_true.mp hg
  have hgit : topName g = ".git" := by simpa using hgname
  have hall : ∀ f ∈ d3, topName f = ".git" := by
    intro f hf
    have hfmem : topName f ∈ (d3.map topName).dedup :=
      List.mem_dedup.mpr (List.mem_map.mpr ⟨f, hf, rfl⟩)
    have hgmem' : topName g ∈ (d3.map topName).dedup :=
      List.mem_dedup.mpr (List.mem_map.mpr ⟨g, hgmem, rfl⟩)
    unfold numEntries at hsmall
    cases hd : (d3.map topName).dedup with
    | nil => rw [hd] at hfmem; simp at hfmem
    | cons x xs =>
      cases xs with
      | nil =>
        rw [hd] at hfmem hgmem'
        simp only [List.mem_singleton] at hfmem hgmem'
        rw [hfmem, ← hgmem', hgit]
      | cons y ys =>
        rw [hd] at hsmall
        simp at hsmall
  rw [List.filter_eq_nil_iff]
  intro f hf
  simp [hall f hf]

/-- C3 (amended): the guard compares the *total* top-level entry count,
`.git` included, against one.  A version whose post-normalization working
tree has at most one entry in total — i.e. nothing besides `.git` when
`.git` is present — is skipped when `allow_empty` is unset; when
`allow_empty` is set it yields exactly one commit, and that commit is empty
(stages no files) whenever `.git` is present. -/
theorem C3_emptiness_guard (package : String) (fetch : String → List (String × String))
    (st : RepoState) (v url author : String) (d3 : Dir)
    (hprep : prepareTree package fetch st.dir v url = .ok d3)
    (hsmall : numEntries d3 ≤ 1) :
    stepVersion package false fetch st (v, url, author) = .ok { st with dir := d3 } ∧
    (∀ st', stepVersion package true fetch st (v, url, author) = .ok st' →
      ∃ c, st'.commits = st.commits ++ [c] ∧ (hasGit d3 = true → c.tree = [])) := by
  constructor
  · unfold stepVersion
    dsimp only
    rw [hprep]
    have hcond : (decide (numEntries d3 ≤ 1) && !false) = true := by
      simp [hsmall]
    dsimp only
    rw [if_pos hcond]
  · intro st' h
    unfold stepVersion at h
    dsimp only at h
    rw [hprep] at h
    dsimp only at h
    have hcond : ¬((decide (numEntries d3 ≤ 1) && !true) = true) := by simp
    rw [if_neg hcond] at h
    cases hcirca : circaOfUrl url with
    | none => rw [hcirca] at h; simp at h
    | some circa =>
      rw [hcirca] at h
      dsimp only at h
      cases hname : authorName author with
      | none => rw [hname] at h; simp at h
      | some cname =>
        rw [hname] at h
        dsimp only at h
        cases hmail : authorEmail author with
        | none => rw [hmail] at h; simp at h
        | some cemail =>
          rw [hmail] at h
          dsimp only at h
          have hfalse : ¬((!true &&
              (d3.filter (fun f => !(topName f == ".git")) == st.lastTree)) = true) := by
            simp
          rw [if_neg hfalse] at h
          simp only [Except.ok.injEq] at h
          subst h
          refine ⟨_, rfl, ?_⟩
          intro hg
          exact small_tree_filter_git d3 hsmall hg

theorem C3_amended_witness :
    stepVersion "p" false (fun _ => []) ⟨[([".git"], "")], [], []⟩
      ("1.0", "http://h/circa/2000/01/02/x", "A <a@b>") =
      .ok ⟨[([".git"], "")], [], []⟩ :=
  (C3_emptiness_guard "p" (fun _ => []) ⟨[([".git"], "")], [], []⟩
    "1.0" "http://h/circa/2000/01/02/x" "A <a@b>" [([".git"], "")]
    (by decide) (by decide)).1

/-- C8 (confirmed): the sourcelist record
`1.2.3 http://host/circa/2004/05/01/release/pkg/pkg-1.2.3-1-src.tar.bz2
Jane Doe <jane@example.com>` yields exactly one commit with author
`Jane Doe <jane@example.com>`, author date and committer date
`2004/05/01 UTC` (the digits-and-slashes fragment after `circa/`),
committer name `Jane Doe`, committer email `jane@example.com`, and message
`pkg 1.2.3`, blank line, `ctm2git-circa: 2004/05/01`. -/
theorem C8_commit_metadata :
    (sourcelist_to_repo "pkg"
      ["1.2.3 http://host/circa/2004/05/01/release/pkg/pkg-1.2.3-1-src.tar.bz2 Jane Doe <jane@example.com>"]
      false false (fun _ => [("a.c", "int"), ("b.h", "h")]) [] []).commits.map
        (fun c => (c.author, c.date, c.committerName, c.committerEmail, c.committerDate,
          c.message)) =
    [("Jane Doe <jane@example.com>", "2004/05/01 UTC", "Jane Doe", "jane@example.com",
      "2004/05/01 UTC", "pkg 1.2.3\n\nctm2git-circa: 2004/05/01")] := by decide

theorem find?_append_first {α : Type} (l₁ l₂ : List α) (p : α → Bool) :
    (l₁ ++ l₂).find? p =
      match l₁.find? p with
      | some a => some a
      | none => l₂.find? p := by
  induction l₁ with
  | nil => simp
  | cons a t ih =>
    simp only [List.cons_append, List.find?]
    cases hpa : p a <;> simp [hpa, ih]

theorem tarExtract_lookup (strip : Bool) (archive : List (String × String))
    (d : Dir) (path : List String) :
    lookupk (tarExtract d archive strip) path =
      match archive.reverse.find? (fun m =>
        if strip then decide (2 ≤ (memberComps m.1).length) && ((memberComps m.1).drop 1 == path)
        else memberComps m.1 == path) with
      | some m => some m.2
      | none => lookupk d path := by
  induction archive generalizing d with
  | nil => simp [tarExtract]
  | cons m t ih =>
    simp only [tarExtract] at ih ⊢
    simp only [List.foldl_cons, List.reverse_cons]
    rw [find?_append_first, ih]
    cases hfind : t.reverse.find? (fun m =>
        if strip then decide (2 ≤ (memberComps m.1).length) && ((memberComps m.1).drop 1 == path)
        else memberComps m.1 == path) with
    | some a => rfl
    | none =>
      dsimp only
      cases strip with
      | false =>
        by_cases hp : memberComps m.1 = path
        · subst hp
          simp [List.find?, lookupk_setk_self]
        · have h1 := lookupk_setk_other d (memberComps m.1) path m.2 (Ne.symm hp)
          have hbe : (memberComps m.1 == path) = false := by simp [hp]
          simp [List.find?, hbe, h1]
      | true =>
        cases hc : memberComps m.1 with
        | nil => simp [List.find?, hc]
        | cons c0 cs =>
          cases cs with
          | nil => simp [List.find?, hc]
          | cons c1 cs2 =>
            have hlen : decide (2 ≤ (c0 :: c1 :: cs2).length) = true := by
              simp only [decide_eq_true_eq, List.length_cons]
              omega
            by_cases hp : c1 :: cs2 = path
            · subst hp
              simp [List.find?, hc, hlen, lookupk_setk_self]
            · have h1 := lookupk_setk_other d (c1 :: cs2) path m.2 (Ne.symm hp)
              have hbe : (c1 :: cs2 == path) = false := by simp [hp]
              simp [List.find?, hc, hlen, hbe, h1]

/-- C9, counterexample: the regex `[^/]*\.src/` requires a `/` after the
`.src` component.  For an archive whose only member is named `foo.src` (no
slash), the first path component ends in `.src`, so the claim demands
stripping; the code does not strip and extracts the member verbatim
(stripping would instead have dropped the single-component member). -/
theorem C9_counterexample :
    pyEndsWith (String.mk ((splitOnChar '/' "foo.src".data []).headD [])) ".src" = true ∧
    archiveStrip ["foo.src"] = false ∧
    tarExtract [] [("foo.src", "c")] (archiveStrip ["foo.src"]) = [(["foo.src"], "c")] ∧
    tarExtract [] [("foo.src", "c")] true = [] := by
  refine ⟨by decide, by decide, by decide, by decide⟩

/-- C9 (amended): stripping triggers exactly when some member name has a
first path component ending in `.src` *followed by a `/`* (the name has at
least two components); when it triggers, every member is extracted with its
first component dropped (single-component members vanish), later members
overwriting earlier ones; when it does not trigger, every member is
extracted verbatim at its own path. -/
theorem C9_layout_stripping (archive : List (String × String)) (d : Dir) (path : List String) :
    (archiveStrip (archive.map Prod.fst) = true ↔
      ∃ n ∈ archive.map Prod.fst, 2 ≤ (splitOnChar '/' n.data []).length ∧
        ".src".data.isSuffixOf ((splitOnChar '/' n.data []).headD []) = true) ∧
    (archiveStrip (archive.map Prod.fst) = false →
      lookupk (tarExtract d archive false) path =
        match archive.reverse.find? (fun m => memberComps m.1 == path) with
        | some m => some m.2
        | none => lookupk d path) ∧
    (archiveStrip (archive.map Prod.fst) = true →
      lookupk (tarExtract d archive true) path =
        match archive.reverse.find? (fun m =>
          decide (2 ≤ (memberComps m.1).length) && ((memberComps m.1).drop 1 == path)) with
        | some m => some m.2
        | none => lookupk d path) := by
  refine ⟨?_, ?_, ?_⟩
  · unfold archiveStrip
    rw [List.any_eq_true]
    constructor
    · rintro ⟨n, hn, hmatch⟩
      refine ⟨n, hn, ?_⟩
      unfold stripMatch at hmatch
      cases hsp : splitOnChar '/' n.data [] with
      | nil => rw [hsp] at hmatch; simp at hmatch
      | cons c cs =>
        cases cs with
        | nil => rw [hsp] at hmatch; simp at hmatch
        | cons c2 cs2 =>
          rw [hsp] at hmatch
          refine ⟨by simp, ?_⟩
          simpa using hmatch
    · rintro ⟨n, hn, hlen, hsuf⟩
      refine ⟨n, hn, ?_⟩
      unfold stripMatch
      cases hsp : splitOnChar '/' n.data [] with
      | nil => rw [hsp] at hlen; simp at hlen
      | cons c cs =>
        cases cs with
        | nil => rw [hsp] at hlen; simp at hlen
        | cons c2 cs2 =>
          rw [hsp] at hsuf
          simpa using hsuf
  · intro _
    exact tarExtract_lookup false archive d path
  · intro _
    exact tarExtract_lookup true archive d path

theorem C9_witness :
    lookupk (tarExtract [] [("a.src/f", "c")] true) ["f"] = some "c" := by
  have h := (C9_layout_stripping [("a.src/f", "c")] [] ["f"]).2.2 (by decide)
  rw [h]
  decide

/-- C10 (confirmed): the cache key strips only the literal `http://` (an
`https://` URL keeps its scheme) and flattens every `/` to `_`, so the key
function is not injective — `http://a/b` and `http://a_b` are distinct URLs
with the same key — and fetching the second URL after the first returns the
cache file downloaded from the first URL (`contentA`) although downloading
the second URL would produce `contentB`. -/
theorem C10_cache_key_not_injective :
    "http://a/b" ≠ "http://a_b" ∧
    url_cache_key "http://a/b" = url_cache_key "http://a_b" ∧
    url_cache_key "https://x/y" = "https:__x_y" ∧
    url_retrieve_cached (fun u => if u = "http://a/b" then "contentA" else "contentB")
      ((url_retrieve_cached (fun u => if u = "http://a/b" then "contentA" else "contentB")
        [] "http://a/b").2) "http://a_b" =
      ("a_b", [("a_b", "contentA")]) ∧
    (fun u => if u = "http://a/b" then "contentA" else "contentB") "http://a_b" =
      "contentB" := by
  refine ⟨by decide, by decide, by decide, by decide, by decide⟩

end Ctm2git
